import Mathlib

/-!
# Verification of the `tjson` value model

A shallow embedding of the core data model of the `tjson` crate
(`src/number.rs`, `src/map.rs`, `src/set.rs`, `src/value/mod.rs`)
together with proofs about the embedded operations.

Machine integers are embedded as `Int` / `Nat` (with explicit `2 ^ 64`
bounds where the machine width matters).  Finite `f64` values are
embedded as their exact rational magnitudes: every finite IEEE-754
double is a rational number, and the code under verification never
performs float arithmetic — it only checks finiteness (`f.is_finite()`),
stores the value, and compares stored values through `OrderedFloat`,
whose equality and ordering on finite values coincide with the numeric
(= rational) ones.  Rust strings are embedded as `List Char`
(byte-order comparison on UTF-8 coincides with code-point order).
-/

/-- Model of an `f64` bit-pattern class as far as the code observes it:
a finite value (embedded as its exact rational magnitude), NaN, or an
infinity.  `Number` construction (`Number::from_f64`) branches only on
`is_finite`. -/
inductive F64 where
  | finite (magnitude : ℚ)
  | nan
  | inf (positive : Bool)
deriving DecidableEq

/-- Rust `f64::is_finite`. -/
def F64.is_finite : F64 → Bool
  | .finite _ => true
  | .nan => false
  | .inf _ => false

/-- The private payload enum `N` of `src/number.rs` (lines 28–38):
`Int(i64)`, `UInt(u64)`, `Float(OrderedFloat<f64>)` (always finite). -/
inductive N where
  | int (i : Int)
  | uint (u : Nat)
  | float (f : ℚ)
deriving DecidableEq

/-- Rust `i64::cmp` / numeric trichotomy on the embedded integers. -/
def intCmp (a b : Int) : Ordering :=
  if a < b then .lt else if a = b then .eq else .gt

/-- Rust `u64::cmp` on the embedded naturals. -/
def natCmp (a b : Nat) : Ordering :=
  if a < b then .lt else if a = b then .eq else .gt

/-- `OrderedFloat<f64>::cmp` restricted to finite values: numeric order
on the embedded rational magnitudes. -/
def ratCmp (a b : ℚ) : Ordering :=
  if a < b then .lt else if a = b then .eq else .gt

/-- The `#[derive(Ord)]` comparison on `N`: variants compare by
declaration order (`Int < UInt < Float`) and payloads are compared only
within one variant. -/
def N.cmp : N → N → Ordering
  | .int a, .int b => intCmp a b
  | .int _, .uint _ => .lt
  | .int _, .float _ => .lt
  | .uint _, .int _ => .gt
  | .uint a, .uint b => natCmp a b
  | .uint _, .float _ => .lt
  | .float _, .int _ => .gt
  | .float _, .uint _ => .gt
  | .float a, .float b => ratCmp a b

/-- The `#[derive(PartialEq)]` equality on `N`: same variant, equal
payload. -/
def N.beq : N → N → Bool
  | .int a, .int b => decide (a = b)
  | .uint a, .uint b => decide (a = b)
  | .float a, .float b => decide (a = b)
  | _, _ => false

/-- The mathematical magnitude of a stored payload. -/
def N.toRat : N → ℚ
  | .int i => (i : ℚ)
  | .uint u => (u : ℚ)
  | .float f => f

/-- Declaration-order rank of the variant (`Int` = 0, `UInt` = 1,
`Float` = 2), the quantity the derived `Ord` compares first. -/
def N.kindRank : N → Nat
  | .int _ => 0
  | .uint _ => 1
  | .float _ => 2

/-- `Number` (`src/number.rs` lines 23–26): a wrapper around `N`. -/
structure Number where
  n : N
deriving DecidableEq

/-- `Number::cmp` — the derived `Ord` delegates to the payload. -/
def Number.cmp (a b : Number) : Ordering :=
  N.cmp a.n b.n

/-- `a < b` on `Number` (derived `PartialOrd`, consistent with `cmp`). -/
def Number.lt (a b : Number) : Bool :=
  N.cmp a.n b.n == Ordering.lt

/-- `a == b` on `Number` (derived `PartialEq`). -/
def Number.beq (a b : Number) : Bool :=
  N.beq a.n b.n

/-- `Number::is_i64` (`src/number.rs` lines 44–49). -/
def Number.is_i64 (x : Number) : Bool :=
  match x.n with
  | .uint _ | .float _ => false
  | .int _ => true

/-- `Number::is_u64` (`src/number.rs` lines 54–59). -/
def Number.is_u64 (x : Number) : Bool :=
  match x.n with
  | .uint _ => true
  | .int _ | .float _ => false

/-- `Number::is_f64` (`src/number.rs` lines 64–69). -/
def Number.is_f64 (x : Number) : Bool :=
  match x.n with
  | .float _ => true
  | .uint _ | .int _ => false

/-- `Number::as_i64` (`src/number.rs` lines 75–81). -/
def Number.as_i64 (x : Number) : Option Int :=
  match x.n with
  | .uint _ => none
  | .int n => some n
  | .float _ => none

/-- `Number::as_u64` (`src/number.rs` lines 87–93). -/
def Number.as_u64 (x : Number) : Option Nat :=
  match x.n with
  | .uint n => some n
  | .int _ => none
  | .float _ => none

/-- `Number::as_f64` (`src/number.rs` lines 99–105). -/
def Number.as_f64 (x : Number) : Option ℚ :=
  match x.n with
  | .uint _ => none
  | .int _ => none
  | .float f => some f

/-- `Number::from_f64` (`src/number.rs` lines 120–126): finite floats
are stored, non-finite inputs produce `None`. -/
def Number.from_f64 (f : F64) : Option Number :=
  if f.is_finite then
    some { n := N.float (match f with | .finite q => q | _ => 0) }
  else
    none

/-- `impl From<i64> for Number` (`src/number.rs` lines 241–256,
instantiated at `i64`): negative inputs are stored as `Int`,
non-negative inputs as `UInt` (for `0 ≤ i`, `i as u64` is `i.toNat`). -/
def Number.from_i64 (i : Int) : Number :=
  if i < 0 then { n := N.int i } else { n := N.uint i.toNat }

/-- `impl From<u64> for Number` (`src/number.rs` lines 258–269,
instantiated at `u64`). -/
def Number.from_u64 (u : Nat) : Number :=
  { n := N.uint u }

/-- The comparison the spec describes: kind rank first
(`Int < UInt < Float`), then mathematical magnitude within a kind. -/
def N.specCmp (a b : N) : Ordering :=
  (natCmp a.kindRank b.kindRank).then (ratCmp a.toRat b.toRat)

/-! ## Comparison helper lemmas -/

lemma intCmp_lt_iff (a b : Int) : intCmp a b = .lt ↔ a < b := by
  unfold intCmp; split_ifs with h1 h2 <;> simp_all

lemma intCmp_eq_iff (a b : Int) : intCmp a b = .eq ↔ a = b := by
  unfold intCmp; split_ifs with h1 h2 <;> simp_all
  exact fun h => absurd h (ne_of_lt h1)

lemma natCmp_lt_iff (a b : Nat) : natCmp a b = .lt ↔ a < b := by
  unfold natCmp; split_ifs with h1 h2 <;> simp_all

lemma natCmp_eq_iff (a b : Nat) : natCmp a b = .eq ↔ a = b := by
  unfold natCmp; split_ifs with h1 h2 <;> simp_all
  exact fun h => absurd h (ne_of_lt h1)

lemma ratCmp_lt_iff (a b : ℚ) : ratCmp a b = .lt ↔ a < b := by
  unfold ratCmp; split_ifs with h1 h2 <;> simp_all

lemma ratCmp_eq_iff (a b : ℚ) : ratCmp a b = .eq ↔ a = b := by
  unfold ratCmp; split_ifs with h1 h2 <;> simp_all
  exact fun h => absurd h (ne_of_lt h1)

lemma intCmp_swap (a b : Int) : intCmp b a = (intCmp a b).swap := by
  unfold intCmp
  rcases lt_trichotomy a b with h | h | h
  · rw [if_neg (asymm h), if_neg (Ne.symm (ne_of_lt h)), if_pos h]; rfl
  · subst h
    rw [if_neg (lt_irrefl a), if_pos rfl]; rfl
  · rw [if_pos h, if_neg (asymm h), if_neg (ne_of_gt h)]; rfl

lemma natCmp_swap (a b : Nat) : natCmp b a = (natCmp a b).swap := by
  unfold natCmp
  rcases lt_trichotomy a b with h | h | h
  · rw [if_neg (asymm h), if_neg (Ne.symm (ne_of_lt h)), if_pos h]; rfl
  · subst h
    rw [if_neg (lt_irrefl a), if_pos rfl]; rfl
  · rw [if_pos h, if_neg (asymm h), if_neg (ne_of_gt h)]; rfl

lemma ratCmp_swap (a b : ℚ) : ratCmp b a = (ratCmp a b).swap := by
  unfold ratCmp
  rcases lt_trichotomy a b with h | h | h
  · rw [if_neg (asymm h), if_neg (Ne.symm (ne_of_lt h)), if_pos h]; rfl
  · subst h
    rw [if_neg (lt_irrefl a), if_pos rfl]; rfl
  · rw [if_pos h, if_neg (asymm h), if_neg (ne_of_gt h)]; rfl

lemma intCmp_cast (a b : Int) : ratCmp (a : ℚ) (b : ℚ) = intCmp a b := by
  unfold ratCmp intCmp
  rcases lt_trichotomy a b with h | h | h
  · rw [if_pos h, if_pos (by exact_mod_cast h)]
  · subst h; simp
  · rw [if_neg (asymm h), if_neg (ne_of_gt h),
        if_neg (by exact_mod_cast asymm h), if_neg (by exact_mod_cast ne_of_gt h)]

lemma natCmp_cast (a b : Nat) : ratCmp (a : ℚ) (b : ℚ) = natCmp a b := by
  unfold ratCmp natCmp
  rcases lt_trichotomy a b with h | h | h
  · rw [if_pos h, if_pos (by exact_mod_cast h)]
  · subst h; simp
  · rw [if_neg (asymm h), if_neg (ne_of_gt h),
        if_neg (by exact_mod_cast asymm h), if_neg (by exact_mod_cast ne_of_gt h)]

lemma N.cmp_swap (a b : N) : N.cmp b a = (N.cmp a b).swap := by
  cases a <;> cases b <;>
    first
      | rfl
      | exact intCmp_swap _ _
      | exact natCmp_swap _ _
      | exact ratCmp_swap _ _

lemma N.beq_iff_cmp_eq (a b : N) : N.beq a b = true ↔ N.cmp a b = .eq := by
  cases a <;> cases b <;>
    simp only [N.beq, N.cmp, decide_eq_true_eq,
      intCmp_eq_iff, natCmp_eq_iff, ratCmp_eq_iff] <;>
    simp

/-! ## Claim theorems about `Number` -/

/-- C1 counterexample: the unsigned number 100 compares *less than* the
float number 0.5 under the derived order (`UInt` variant < `Float`
variant), although its mathematical magnitude is greater — so the
ordering does not match magnitude comparison across kinds. -/
theorem number_order_magnitude_counterexample :
    Number.from_f64 (F64.finite (1 / 2)) = some { n := N.float (1 / 2) } ∧
    Number.lt (Number.from_u64 100) { n := N.float (1 / 2) } = true ∧
    ¬ ((100 : ℚ) < (1 / 2 : ℚ)) := by
  refine ⟨rfl, rfl, by norm_num⟩

/-- C1 (amended): the `Number` comparison is total — for every pair
exactly one of `a < b`, `a == b`, `b < a` holds — and it compares the
variant kind first (`Int < UInt < Float` in declaration order) and the
mathematical magnitude only within one kind, as computed by
`N.specCmp`. -/
theorem number_cmp_total_kind_then_magnitude (a b : Number) :
    Number.cmp a b = N.specCmp a.n b.n ∧
    ((Number.lt a b = true ∧ Number.beq a b = false ∧ Number.lt b a = false) ∨
     (Number.lt a b = false ∧ Number.beq a b = true ∧ Number.lt b a = false) ∨
     (Number.lt a b = false ∧ Number.beq a b = false ∧ Number.lt b a = true)) := by
  constructor
  · show N.cmp a.n b.n = N.specCmp a.n b.n
    cases a.n <;> cases b.n <;>
      simp only [N.cmp, N.specCmp, N.kindRank, N.toRat,
        intCmp_cast, natCmp_cast] <;> rfl
  · have hswap := N.cmp_swap a.n b.n
    have hbeq := N.beq_iff_cmp_eq a.n b.n
    have hlt : Number.lt a b = (N.cmp a.n b.n == Ordering.lt) := rfl
    have hlt2 : Number.lt b a = (N.cmp b.n a.n == Ordering.lt) := rfl
    have hbq : Number.beq a b = N.beq a.n b.n := rfl
    have hbfalse : N.cmp a.n b.n ≠ Ordering.eq → N.beq a.n b.n = false := by
      intro hne
      cases hb : N.beq a.n b.n
      · rfl
      · exact absurd (hbeq.mp hb) hne
    rcases hc : N.cmp a.n b.n with _ | _ | _
    · refine Or.inl ⟨?_, ?_, ?_⟩
      · rw [hlt, hc]; rfl
      · rw [hbq]; exact hbfalse (by rw [hc]; exact fun h => Ordering.noConfusion h)
      · rw [hlt2, hswap, hc]; rfl
    · refine Or.inr (Or.inl ⟨?_, ?_, ?_⟩)
      · rw [hlt, hc]; rfl
      · rw [hbq]; exact hbeq.mpr hc
      · rw [hlt2, hswap, hc]; rfl
    · refine Or.inr (Or.inr ⟨?_, ?_, ?_⟩)
      · rw [hlt, hc]; rfl
      · rw [hbq]; exact hbfalse (by rw [hc]; exact fun h => Ordering.noConfusion h)
      · rw [hlt2, hswap, hc]; rfl

/-- C2: for every integer representable in both 64-bit kinds
(`0 ≤ i ≤ i64::MAX`), the `Number` built through `From<i64>` equals the
`Number` built through `From<u64>` — both store the `UInt` kind. -/
theorem from_i64_eq_from_u64_on_overlap (i : Int) (h0 : 0 ≤ i)
    (_hmax : i ≤ 9223372036854775807) :
    Number.from_i64 i = Number.from_u64 i.toNat ∧
    Number.beq (Number.from_i64 i) (Number.from_u64 i.toNat) = true := by
  unfold Number.from_i64 Number.from_u64
  rw [if_neg (not_lt.mpr h0)]
  exact ⟨rfl, by simp [Number.beq, N.beq]⟩

/-- C2 witness: `Number::from(5i64) == Number::from(5u64)`. -/
theorem from_i64_eq_from_u64_on_overlap_witness :
    Number.from_i64 5 = Number.from_u64 5 :=
  (from_i64_eq_from_u64_on_overlap 5 (by norm_num) (by norm_num)).1

/-- C3: `Number::from_f64` succeeds exactly on finite inputs — it
returns `None` on NaN and both infinities — and `from_f64(256.0)` both
succeeds and reads back as `256.0` through `as_f64`. -/
theorem from_f64_some_iff_finite (f : F64) :
    (Number.from_f64 f).isSome = f.is_finite ∧
    Number.from_f64 F64.nan = none ∧
    Number.from_f64 (F64.inf true) = none ∧
    Number.from_f64 (F64.inf false) = none ∧
    (Number.from_f64 (F64.finite 256)).bind Number.as_f64 = some (256 : ℚ) := by
  refine ⟨?_, rfl, rfl, rfl, rfl⟩
  cases f <;> rfl

/-- C7: each narrowing accessor of `Number` returns a value exactly when
the stored kind matches, and it returns exactly the stored payload. -/
theorem number_accessors_match_kind (x : Number) (i : Int) (u : Nat) (q : ℚ) :
    x.as_i64.isSome = x.is_i64 ∧
    x.as_u64.isSome = x.is_u64 ∧
    x.as_f64.isSome = x.is_f64 ∧
    Number.as_i64 { n := N.int i } = some i ∧
    Number.as_u64 { n := N.uint u } = some u ∧
    Number.as_f64 { n := N.float q } = some q := by
  obtain ⟨n⟩ := x
  refine ⟨?_, ?_, ?_, rfl, rfl, rfl⟩ <;> cases n <;> rfl

/-- C9: the `From<i64>` conversion stores every non-negative input in
the unsigned kind (so `is_u64`, `as_u64 = some (i as u64)`, and the
signed accessors are empty), and every negative input in the signed
kind with `as_u64 = none`. -/
theorem from_i64_nonneg_is_unsigned (i : Int) :
    (0 ≤ i →
      (Number.from_i64 i).is_u64 = true ∧
      (Number.from_i64 i).is_i64 = false ∧
      (Number.from_i64 i).as_i64 = none ∧
      (Number.from_i64 i).as_u64 = some i.toNat) ∧
    (i < 0 →
      (Number.from_i64 i).is_i64 = true ∧
      (Number.from_i64 i).as_u64 = none) := by
  unfold Number.from_i64
  constructor
  · intro h
    rw [if_neg (not_lt.mpr h)]
    exact ⟨rfl, rfl, rfl, rfl⟩
  · intro h
    rw [if_pos h]
    exact ⟨rfl, rfl⟩

/-- C9 witness: evaluated at the signed inputs `5` and `-3`. -/
theorem from_i64_nonneg_is_unsigned_witness :
    (Number.from_i64 5).is_u64 = true ∧ (Number.from_i64 (-3)).is_i64 = true :=
  ⟨((from_i64_nonneg_is_unsigned 5).1 (by norm_num)).1,
   ((from_i64_nonneg_is_unsigned (-3)).2 (by norm_num)).1⟩

/-! ## The `Value` tree (`src/value/mod.rs`) -/

/-- A Rust `str`/`String`, embedded as its sequence of Unicode
characters. -/
abbrev Str := List Char

/-- `tjson::Value` (`src/value/mod.rs` lines 33–145).  `Data` bytes are
embedded as naturals, a `Timestamp` as its instant (an integer tick
count — no claim inspects it), the `Set` payload as the backend's entry
list, and the `Object` payload as the backend's entry list of
key/value pairs (sorted by key for the `BTreeMap` backend, insertion
order for the `LinkedHashMap` backend; both backends keep keys
unique). -/
inductive Value where
  | undefined
  | bool (b : Bool)
  | data (bytes : List Nat)
  | number (n : Number)
  | string (s : Str)
  | timestamp (t : Int)
  | array (elems : List Value)
  | set (elems : List Value)
  | object (members : List (Str × Value))

/-- Backend map lookup (`BTreeMap::get` / `LinkedHashMap::get`): the
value of the unique entry whose key equals `k`, if any.  With unique
keys, first-match lookup over the entry list is that entry. -/
def mget : List (Str × Value) → Str → Option Value
  | [], _ => none
  | (k', v) :: rest, k => if k' = k then some v else mget rest k

/-- `Value::as_object` (`src/value/mod.rs` lines 269–274). -/
def Value.as_object : Value → Option (List (Str × Value))
  | .object m => some m
  | _ => none

/-- `Value::as_array` (`src/value/mod.rs` lines 338–343). -/
def Value.as_array : Value → Option (List Value)
  | .array l => some l
  | _ => none

/-! ### String helpers used by `Value::pointer` -/

/-- Rust `str::starts_with(c)` for a single character. -/
def startsWithChar (s : Str) (c : Char) : Bool :=
  match s with
  | [] => false
  | c' :: _ => c' = c

/-- Rust `str::split('/')`: the (always non-empty) list of `/`-separated
pieces, with empty pieces kept. -/
def splitSlash : Str → List Str
  | [] => [[]]
  | c :: rest =>
    if c = '/' then [] :: splitSlash rest
    else
      match splitSlash rest with
      | t :: ts => (c :: t) :: ts
      | [] => [[c]]

/-- Rust `str::replace("~1", "/")`: replace every (leftmost,
non-overlapping) occurrence. -/
def unescapeSlash : Str → Str
  | '~' :: '1' :: rest => '/' :: unescapeSlash rest
  | c :: rest => c :: unescapeSlash rest
  | [] => []

/-- Rust `str::replace("~0", "~")`: replace every (leftmost,
non-overlapping) occurrence. -/
def unescapeTilde : Str → Str
  | '~' :: '0' :: rest => '~' :: unescapeTilde rest
  | c :: rest => c :: unescapeTilde rest
  | [] => []

/-- The numeric value of a decimal digit string. -/
def digitsVal (s : Str) : Nat :=
  s.foldl (fun a c => a * 10 + (c.toNat - 48)) 0

/-- Rust `str::parse::<usize>()` (on a 64-bit target): an optional `+`
sign followed by at least one ASCII decimal digit, failing on any other
character and on overflow past `usize::MAX = 2^64 - 1`.  Checked
accumulation fails exactly when the mathematical value exceeds the
maximum. -/
def parseUsize (s : Str) : Option Nat :=
  let digits := if startsWithChar s '+' then s.drop 1 else s
  if digits.isEmpty || !digits.all Char.isDigit then none
  else if digitsVal digits < 2 ^ 64 then some (digitsVal digits) else none

/-- `parse_index` (`src/value/mod.rs` lines 147–152): reject a leading
`+` and a leading `0` on a multi-character token, then parse as
`usize`. -/
def parse_index (s : Str) : Option Nat :=
  if startsWithChar s '+' || (startsWithChar s '0' && s.length != 1) then none
  else parseUsize s

/-- The token loop of `Value::pointer` (`src/value/mod.rs` lines
720–734): walk the already-unescaped reference tokens, looking each up
as an object key or a parsed array index, failing on any mismatch. -/
def pointerTokens : Value → List Str → Option Value
  | v, [] => some v
  | v, token :: rest =>
    match v with
    | .object m =>
      match mget m token with
      | some t => pointerTokens t rest
      | none => none
    | .array l =>
      match (parse_index token).bind l.get? with
      | some t => pointerTokens t rest
      | none => none
    | _ => none

/-- `Value::pointer` (`src/value/mod.rs` lines 709–735): empty pointer
resolves to the value itself; a non-empty pointer must start with `/`;
the remaining `/`-separated tokens are unescaped (`~1` → `/`, then
`~0` → `~`) and resolved in turn. -/
def Value.pointer (v : Value) (p : Str) : Option Value :=
  if p = [] then some v
  else if !startsWithChar p '/' then none
  else pointerTokens v (((splitSlash p).drop 1).map (fun x => unescapeTilde (unescapeSlash x)))

/-- The token loop of `Value::pointer_mut` (`src/value/mod.rs` lines
788–805), transcribed separately: in the pure embedding the resolved
mutable reference is the resolved subtree itself (`map.get_mut` /
`list.get_mut` locate the same entry as `map.get` / `list.get`). -/
def pointerMutTokens : Value → List Str → Option Value
  | v, [] => some v
  | v, token :: rest =>
    match v with
    | .object m =>
      match mget m token with
      | some t => pointerMutTokens t rest
      | none => none
    | .array l =>
      match (parse_index token).bind l.get? with
      | some t => pointerMutTokens t rest
      | none => none
    | _ => none

/-- `Value::pointer_mut` (`src/value/mod.rs` lines 775–806). -/
def Value.pointer_mut (v : Value) (p : Str) : Option Value :=
  if p = [] then some v
  else if !startsWithChar p '/' then none
  else pointerMutTokens v (((splitSlash p).drop 1).map (fun x => unescapeTilde (unescapeSlash x)))

/-! ## Pointer equivalence machinery -/

lemma pointerMutTokens_eq_pointerTokens : ∀ (ts : List Str) (v : Value),
    pointerMutTokens v ts = pointerTokens v ts := by
  intro ts
  induction ts with
  | nil => intro v; rfl
  | cons t rest ih =>
    intro v
    cases v
    case array l =>
      simp only [pointerMutTokens, pointerTokens]
      cases h : (parse_index t).bind l.get? <;> simp [h, ih]
    case object m =>
      simp only [pointerMutTokens, pointerTokens]
      cases h : mget m t <;> simp [h, ih]
    all_goals rfl

/-- Modelled from the spec (§4.3): array index syntax — a bare
non-negative decimal, no leading zero unless the token is exactly `0`,
no leading `+`; any other form fails. -/
def specIndex (s : Str) : Option Nat :=
  if !s.isEmpty && s.all Char.isDigit && !startsWithChar s '+' &&
      (s == ['0'] || !startsWithChar s '0') then
    some (digitsVal s)
  else none

/-- Modelled from the spec (§4.3 pointer contract): per-segment
resolution — object key lookup on an Object, spec-syntax index lookup
on an Array; any type mismatch, missing key or out-of-range index fails
the whole resolution, short-circuiting remaining segments. -/
def specTokens : Value → List Str → Option Value
  | v, [] => some v
  | v, token :: rest =>
    match v with
    | .object m =>
      match mget m token with
      | some t => specTokens t rest
      | none => none
    | .array l =>
      match (specIndex token).bind l.get? with
      | some t => specTokens t rest
      | none => none
    | _ => none

/-- Modelled from the spec (§4.3): full RFC6901-style resolution —
empty pointer yields the value itself, a non-empty pointer must start
with `/`, and each `/`-delimited segment is unescaped (`~1` → `/` then
`~0` → `~`) before lookup. -/
def Value.pointerSpec (v : Value) (p : Str) : Option Value :=
  if p = [] then some v
  else if !startsWithChar p '/' then none
  else specTokens v (((splitSlash p).drop 1).map (fun x => unescapeTilde (unescapeSlash x)))

mutual
/-- Machine-size well-formedness: every array node in the tree has
fewer than `2 ^ 64` elements, as every real `Vec` does (a `usize`
length). -/
def Value.sizesOk : Value → Bool
  | .array l => decide (l.length < 2 ^ 64) && listSizesOk l
  | .set l => listSizesOk l
  | .object m => membersSizesOk m
  | _ => true

/-- `sizesOk` over the elements of a list. -/
def listSizesOk : List Value → Bool
  | [] => true
  | v :: vs => Value.sizesOk v && listSizesOk vs

/-- `sizesOk` over the values of an entry list. -/
def membersSizesOk : List (Str × Value) → Bool
  | [] => true
  | (_, v) :: ms => Value.sizesOk v && membersSizesOk ms
end

lemma mget_sizesOk {m : List (Str × Value)} {k : Str} {v : Value}
    (h : membersSizesOk m = true) (hg : mget m k = some v) :
    Value.sizesOk v = true := by
  induction m with
  | nil => simp [mget] at hg
  | cons kv rest ih =>
    obtain ⟨k', v'⟩ := kv
    rw [membersSizesOk, Bool.and_eq_true] at h
    by_cases hk : k' = k
    · rw [mget, if_pos hk] at hg
      cases hg
      exact h.1
    · rw [mget, if_neg hk] at hg
      exact ih h.2 hg

lemma get?_listSizesOk {l : List Value} {i : Nat} {v : Value}
    (h : listSizesOk l = true) (hg : l.get? i = some v) :
    Value.sizesOk v = true := by
  induction l generalizing i with
  | nil => simp at hg
  | cons x xs ih =>
    rw [listSizesOk, Bool.and_eq_true] at h
    cases i with
    | zero =>
      simp only [List.get?] at hg
      cases hg
      exact h.1
    | succ j =>
      exact ih h.2 hg

lemma startsWithChar_zero_length_one {t : Str} (h0 : startsWithChar t '0' = true)
    (h1 : t.length = 1) : t = ['0'] := by
  cases t with
  | nil => simp [startsWithChar] at h0
  | cons c rest =>
    cases rest with
    | nil =>
      simp only [startsWithChar, decide_eq_true_eq] at h0
      subst h0; rfl
    | cons d r => simp [List.length] at h1

lemma parse_index_cases (t : Str) :
    parse_index t = specIndex t ∨
      (parse_index t = none ∧ specIndex t = some (digitsVal t) ∧
        2 ^ 64 ≤ digitsVal t) := by
  unfold parse_index specIndex parseUsize
  cases hplus : startsWithChar t '+' with
  | true => left; simp [hplus]
  | false =>
    cases hzero : (startsWithChar t '0' && t.length != 1) with
    | true =>
      left
      rw [Bool.and_eq_true] at hzero
      have hne : (t == ['0']) = false := by
        rw [beq_eq_false_iff_ne]
        intro he
        rw [he] at hzero
        simp at hzero
      simp [hplus, hzero.1, hzero.2, hne]
    | false =>
      cases hdig : (t.isEmpty || !t.all Char.isDigit) with
      | true =>
        left
        rcases Bool.or_eq_true_iff.mp hdig with h | h
        · simp [hplus, hzero, hdig, h]
        · rw [Bool.not_eq_true'] at h
          simp [hplus, hzero, hdig, h]
      | false =>
        rw [Bool.or_eq_false_iff] at hdig
        have hcond : (t == ['0'] || !startsWithChar t '0') = true := by
          rw [Bool.and_eq_false_iff] at hzero
          rcases hzero with h | h
          · simp [h]
          · rw [bne_eq_false_iff_eq] at h
            cases h0 : startsWithChar t '0' with
            | false => simp
            | true => simp [startsWithChar_zero_length_one h0 h]
        have hall : t.all Char.isDigit = true := by simpa using hdig.2
        have hall2 : ∀ x ∈ t, x.isDigit = true := by
          simpa [List.all_eq_true] using hall
        cases hbig : decide (digitsVal t < 2 ^ 64) with
        | true =>
          left
          rw [decide_eq_true_eq] at hbig
          have hbig2 : digitsVal t < 18446744073709551616 := hbig
          simp [hplus, hzero, hdig.1, hall, hall2, hcond, hbig, hbig2]
        | false =>
          right
          rw [decide_eq_false_iff_not, not_lt] at hbig
          have hbig2 : 18446744073709551616 ≤ digitsVal t := hbig
          refine ⟨?_, ?_, hbig⟩
          · simp [hplus, hzero, hdig.1, hall, hall2, not_lt.mpr hbig, not_lt.mpr hbig2]
          · simp [hplus, hdig.1, hall, hall2, hcond]

lemma index_agree {t : Str} {l : List Value} (hlen : l.length < 2 ^ 64) :
    (parse_index t).bind l.get? = (specIndex t).bind l.get? := by
  rcases parse_index_cases t with h | ⟨h1, h2, h3⟩
  · rw [h]
  · rw [h1, h2, Option.none_bind, Option.some_bind]
    exact (List.get?_eq_none.mpr (le_trans (le_of_lt hlen) h3)).symm

lemma pointerTokens_eq_specTokens : ∀ (ts : List Str) (v : Value),
    Value.sizesOk v = true → pointerTokens v ts = specTokens v ts := by
  intro ts
  induction ts with
  | nil => intro v _; rfl
  | cons t rest ih =>
    intro v hv
    cases v
    case array l =>
      rw [Value.sizesOk, Bool.and_eq_true, decide_eq_true_eq] at hv
      simp only [pointerTokens, specTokens]
      rw [← index_agree hv.1]
      cases h : (parse_index t).bind l.get? with
      | none => rfl
      | some w =>
        obtain ⟨i, _, hg⟩ := Option.bind_eq_some.mp h
        exact ih w (get?_listSizesOk hv.2 hg)
    case object m =>
      rw [Value.sizesOk] at hv
      simp only [pointerTokens, specTokens]
      cases h : mget m t with
      | none => rfl
      | some w => exact ih w (mget_sizesOk hv h)
    all_goals rfl

/-- C4: on every machine-representable value (all arrays shorter than
`2 ^ 64`), `Value::pointer` resolves exactly as the spec's RFC6901
contract prescribes: empty pointer → the value itself; non-empty
pointer not starting with `/` → no value; each `/`-delimited segment
unescaped `~1` → `/` then `~0` → `~`; object-key lookup on Objects,
spec-syntax index lookup (bare decimal, no leading zero unless `0`, no
leading `+`) on Arrays; every mismatch, miss, out-of-range or malformed
index fails the whole resolution. -/
theorem pointer_matches_rfc6901_spec (v : Value) (p : Str)
    (h : Value.sizesOk v = true) :
    Value.pointer v p = Value.pointerSpec v p := by
  unfold Value.pointer Value.pointerSpec
  split_ifs <;> first
    | rfl
    | exact pointerTokens_eq_specTokens _ _ h

/-- The document `{"x": {"y": ["z", "zz"]}}` from the spec's examples. -/
def exampleDoc : Value :=
  Value.object [(['x'], Value.object [(['y'],
    Value.array [Value.string ['z'], Value.string ['z', 'z']])])]

/-- C4 witness: the claim theorem applied to the spec's own example
document and the pointer `/x/y/1`. -/
theorem pointer_matches_rfc6901_spec_witness :
    Value.sizesOk exampleDoc = true ∧
    Value.pointer exampleDoc ['/', 'x', '/', 'y', '/', '1'] =
      Value.pointerSpec exampleDoc ['/', 'x', '/', 'y', '/', '1'] ∧
    Value.pointer exampleDoc ['/', 'x', '/', 'y', '/', '1'] =
      some (Value.string ['z', 'z']) :=
  ⟨by decide, pointer_matches_rfc6901_spec exampleDoc _ (by decide), by rfl⟩

/-- C10: `Value::pointer` and `Value::pointer_mut` agree on every value
and pointer string: they succeed together and resolve to the same node
of the tree. -/
theorem pointer_mut_agrees_with_pointer (v : Value) (p : Str) :
    Value.pointer_mut v p = Value.pointer v p := by
  unfold Value.pointer_mut Value.pointer
  split_ifs <;> first
    | rfl
    | exact pointerMutTokens_eq_pointerTokens _ _

/-! ## `Value::get` (C5) -/

/-- Modelled from the spec: `Index::index_into` for a string key
(`src/value/index.rs` is not among the sources; the spec §4.3 fixes the
contract): a string key selects the mapped value when the `Value` is an
Object containing that key, and yields no value on any other variant —
a total function, never a fault. -/
def Value.get_key (v : Value) (k : Str) : Option Value :=
  match v with
  | .object m => mget m k
  | _ => none

/-- Modelled from the spec: `Index::index_into` for an integer
position: selects the element when the `Value` is an Array and the
position is in range, and yields no value otherwise — total, never a
fault. -/
def Value.get_pos (v : Value) (i : Nat) : Option Value :=
  match v with
  | .array l => l.get? i
  | _ => none

/-- The array `["A", "B", "C"]` from the spec's examples. -/
def abcArray : Value :=
  Value.array [Value.string ['A'], Value.string ['B'], Value.string ['C']]

/-- C5: `get` with a string key returns the mapped value exactly on an
Object containing the key (`as_object` then map lookup), `get` with an
integer returns the element exactly on an Array with the position in
range (`as_array` then list lookup), and every other case yields no
value; on `["A", "B", "C"]`, `get(2)` is `"C"` and `get("A")` is no
value. -/
theorem get_contract (v : Value) (k : Str) (i : Nat) :
    Value.get_key v k = v.as_object.bind (fun m => mget m k) ∧
    Value.get_pos v i = v.as_array.bind (fun l => l.get? i) ∧
    Value.get_pos abcArray 2 = some (Value.string ['C']) ∧
    Value.get_key abcArray ['A'] = none := by
  refine ⟨?_, ?_, rfl, rfl⟩ <;> cases v <;> rfl

/-! ## `Map` equality (C6) -/

/-- Rust byte-wise `str::cmp`'s strict-less-than, on characters
(UTF-8 byte order coincides with code-point order). -/
def strlt : Str → Str → Bool
  | [], [] => false
  | [], _ :: _ => true
  | _ :: _, [] => false
  | a :: xs, b :: ys =>
    if a < b then true else if b < a then false else strlt xs ys

/-- The entry list of a sorted (`BTreeMap`) backend: every entry's key
is strictly below every later entry's key. -/
def sortedB : List (Str × Value) → Bool
  | [] => true
  | x :: rest => rest.all (fun y => strlt x.1 y.1) && sortedB rest

/-- Key uniqueness, the invariant both map backends maintain. -/
def nodupKeys : List (Str × Value) → Bool
  | [] => true
  | (k, _) :: rest => !(rest.any (fun kv => kv.1 == k)) && nodupKeys rest

/-- Modelled from the spec: equality of the insertion-order
(`LinkedHashMap`) backend — equal length plus pointwise key-lookup
agreement, a pure set-of-pairs comparison independent of entry order.
(The sorted `BTreeMap` backend compares the two sorted entry sequences,
i.e. plain list equality of the entry lists.) -/
def linkedMapEq (xs ys : List (Str × Value)) : Prop :=
  xs.length = ys.length ∧ ∀ kv ∈ xs, mget ys kv.1 = some kv.2

lemma strlt_asymm : ∀ {a b : Str}, strlt a b = true → strlt b a = true → False := by
  intro a
  induction a with
  | nil =>
    intro b h1 h2
    cases b with
    | nil => simp [strlt] at h1
    | cons d ds => simp [strlt] at h2
  | cons c cs ih =>
    intro b h1 h2
    cases b with
    | nil => simp [strlt] at h1
    | cons d ds =>
      rw [strlt] at h1 h2
      by_cases hcd : c < d
      · rw [if_neg (asymm hcd), if_pos hcd] at h2
        exact Bool.noConfusion h2
      · by_cases hdc : d < c
        · rw [if_neg hcd, if_pos hdc] at h1
          exact Bool.noConfusion h1
        · rw [if_neg hcd, if_neg hdc] at h1
          rw [if_neg hdc, if_neg hcd] at h2
          exact ih h1 h2

lemma sortedB_pairwise {xs : List (Str × Value)} (h : sortedB xs = true) :
    xs.Pairwise (fun a b => strlt a.1 b.1 = true) := by
  induction xs with
  | nil => exact List.Pairwise.nil
  | cons x rest ih =>
    rw [sortedB, Bool.and_eq_true, List.all_eq_true] at h
    exact List.Pairwise.cons (fun y hy => h.1 y hy) (ih h.2)

lemma sorted_perm_eq {xs ys : List (Str × Value)} (hperm : xs.Perm ys)
    (hx : xs.Pairwise fun a b => strlt a.1 b.1 = true)
    (hy : ys.Pairwise fun a b => strlt a.1 b.1 = true) : xs = ys := by
  haveI : IsAntisymm (Str × Value) (fun a b => strlt a.1 b.1 = true) :=
    ⟨fun _ _ h1 h2 => (strlt_asymm h1 h2).elim⟩
  exact List.eq_of_perm_of_sorted hperm hx hy

lemma mget_of_mem_nodup {ys : List (Str × Value)} {k : Str} {v : Value}
    (hn : nodupKeys ys = true) (hm : (k, v) ∈ ys) : mget ys k = some v := by
  induction ys with
  | nil => simp at hm
  | cons y rest ih =>
    obtain ⟨k', v'⟩ := y
    rw [nodupKeys, Bool.and_eq_true] at hn
    rcases List.mem_cons.mp hm with he | hm2
    · cases he
      rw [mget, if_pos rfl]
    · by_cases hk : k' = k
      · exfalso
        subst hk
        have hany : rest.any (fun kv => kv.1 == k') = true :=
          List.any_eq_true.mpr ⟨(k', v), hm2, by simp⟩
        rw [hany] at hn
        exact Bool.noConfusion hn.1
      · rw [mget, if_neg hk]
        exact ih hn.2 hm2

/-- C6: `Map` equality is order-independent under either backend
policy.  For any two entry lists holding exactly the same set of
key/value pairs (a permutation, with unique keys): under the sorted
`BTreeMap` backend the stored sorted entry sequences — hence the maps —
are equal, and under the insertion-order `LinkedHashMap` backend the
lookup-based equality holds in both directions, regardless of insertion
order. -/
theorem map_equality_order_independent (xs ys : List (Str × Value))
    (hperm : xs.Perm ys) (hx : nodupKeys xs = true) (hy : nodupKeys ys = true) :
    (sortedB xs = true → sortedB ys = true → xs = ys) ∧
    linkedMapEq xs ys ∧ linkedMapEq ys xs := by
  refine ⟨fun hsx hsy =>
      sorted_perm_eq hperm (sortedB_pairwise hsx) (sortedB_pairwise hsy),
    ⟨hperm.length_eq, ?_⟩, ⟨hperm.length_eq.symm, ?_⟩⟩
  · intro kv hkv
    obtain ⟨k, v⟩ := kv
    exact mget_of_mem_nodup hy (hperm.subset hkv)
  · intro kv hkv
    obtain ⟨k, v⟩ := kv
    exact mget_of_mem_nodup hx (hperm.symm.subset hkv)

/-- C6 witness: two maps with the same two pairs inserted in opposite
orders compare equal under the insertion-order backend's equality. -/
theorem map_equality_order_independent_witness :
    linkedMapEq [(['a'], Value.bool true), (['b'], Value.bool false)]
      [(['b'], Value.bool false), (['a'], Value.bool true)] :=
  (map_equality_order_independent _ _ (List.Perm.swap _ _ _)
    (by decide) (by decide)).2.1

/-! ## `Set` iteration (C8) -/

/-- `Set<Value>` (`src/set.rs` lines 39–42): the backend's entry list
(ascending value order for the `BTreeMap` backend, insertion order for
the `LinkedHashMap` backend — in both cases a deterministic function of
the set's state). -/
structure SetV where
  elems : List Value

/-- `set::Iter` (`src/set.rs` lines 94–96): the iterator's state — the
entries not yet yielded. -/
structure SetIter where
  remaining : List Value

/-- `Set::iter` (`src/set.rs` lines 64–68): a fresh iterator over the
entries; the set itself is not mutated (shared borrow). -/
def SetV.iter (s : SetV) : SetIter :=
  { remaining := s.elems }

/-- `Iter::next` (`src/set.rs` lines 104–114): the next entry's value,
advancing the iterator. -/
def SetIter.next : SetIter → Option (Value × SetIter)
  | { remaining := [] } => none
  | { remaining := x :: xs } => some (x, { remaining := xs })

/-- The full sequence of elements an iterator yields: repeated `next`
until it returns `none`. -/
def SetIter.drain (it : SetIter) : List Value :=
  go it.remaining
where
  go : List Value → List Value
    | [] => []
    | x :: xs => x :: go xs

lemma SetIter.drain_unfold_next (it : SetIter) :
    it.drain = (match it.next with
      | none => []
      | some (x, it2) => x :: it2.drain) := by
  obtain ⟨l⟩ := it
  cases l <;> rfl

lemma SetIter.drain_mk (l : List Value) :
    SetIter.drain { remaining := l } = l := by
  show SetIter.drain.go l = l
  induction l with
  | nil => rfl
  | cons x xs ih => rw [SetIter.drain.go, ih]

/-- C8: `Set` iteration is stable — any two iterators obtained from the
same set, with no mutation in between, yield the same elements in the
same relative order (namely the backend's entry list). -/
theorem set_iter_stable (s : SetV) (i1 i2 : SetIter)
    (h1 : i1 = s.iter) (h2 : i2 = s.iter) :
    i1.drain = i2.drain ∧ i1.drain = s.elems := by
  subst h1 h2
  exact ⟨rfl, SetIter.drain_mk s.elems⟩

/-- C8 witness: two iterators over a concrete two-element set yield the
same sequence. -/
theorem set_iter_stable_witness :
    (SetV.iter { elems := [Value.bool true, Value.undefined] }).drain =
      (SetV.iter { elems := [Value.bool true, Value.undefined] }).drain ∧
    (SetV.iter { elems := [Value.bool true, Value.undefined] }).drain =
      [Value.bool true, Value.undefined] :=
  set_iter_stable { elems := [Value.bool true, Value.undefined] } _ _ rfl rfl
